import Mathlib

/-!
Shallow embedding of the court_vision tracking and shot-inference core
(src/backend/app/services/analysis.py and src/backend/app/services/detection.py).

Conventions of the embedding:
* Python floats are modelled as rationals; all the arithmetic in the source
  (divisions by the 1920 by 1080 frame constants, absolute values, comparisons)
  is exact on the inputs the pipeline receives, so this is faithful.
* Calls to the process-wide random generator are modelled as explicit rational
  draw parameters: the ambiguous-outcome draw of one scan anchor i is `rands i`
  (each anchor is visited at most once, so indexing draws by anchor preserves
  the behaviour), and the draws of the mock generator are the fields of a
  `MockRand` record, indexed by the loop counter.
* Python dictionaries are modelled as association lists in insertion order,
  which is exactly the iteration order Python guarantees.
* The `while` loop of the shot scan is written with a fuel argument equal to
  the stream length; the loop index strictly increases each iteration and the
  loop runs only while `i < length - 5`, so the fuel can never be exhausted
  before the loop exits on its own.
-/

-- The Batteries rational arithmetic primitives are marked irreducible, which
-- blocks the evaluation of concrete rational facts by the decide tactic; the
-- kernel itself unfolds them fine, so we restore default reducibility locally.
attribute [local semireducible] Rat.mul Rat.inv Rat.add Rat.sub Rat.ofScientific

/-- One sample of the ball position stream, as stored by
`DetectionService.track_objects` into `tracks["ball"]` (the bbox field is
dropped here: `_detect_shots` and everything below it read only frame,
timestamp, x and y). -/
structure BallSample where
  frame : Int
  timestamp : ℚ
  x : ℚ
  y : ℚ
  deriving Repr, DecidableEq

def dfltSample : BallSample := ⟨0, 0, 0, 0⟩

/-- The ShotEvent dataclass of analysis.py. -/
structure ShotEvent where
  id : ℕ
  frame_start : Int
  frame_end : Int
  release_x : ℚ
  release_y : ℚ
  outcome : String
  zone : String
  confidence : ℚ
  timestamp : ℚ
  trajectory : List (ℚ × ℚ)
  deriving Repr, DecidableEq

/-- The court zones of `AnalysisService.__init__`, in declaration order
(Python dict iteration order): name, x_range, y_range. -/
def zonesList : List (String × (ℚ × ℚ) × (ℚ × ℚ)) :=
  [ ("paint", (0.35, 0.65), (0, 0.25)),
    ("left-corner", (0, 0.25), (0.6, 1.0)),
    ("right-corner", (0.75, 1.0), (0.6, 1.0)),
    ("left-wing", (0, 0.35), (0.25, 0.6)),
    ("right-wing", (0.65, 1.0), (0.25, 0.6)),
    ("top-key", (0.35, 0.65), (0.4, 0.7)),
    ("mid-range", (0.25, 0.75), (0.25, 0.4)) ]

/-- Membership test of one zone rectangle, as in `_get_zone`:
`x_range[0] <= nx <= x_range[1] and y_range[0] <= ny <= y_range[1]`. -/
def inRect (z : String × (ℚ × ℚ) × (ℚ × ℚ)) (nx ny : ℚ) : Prop :=
  z.2.1.1 ≤ nx ∧ nx ≤ z.2.1.2 ∧ z.2.2.1 ≤ ny ∧ ny ≤ z.2.2.2

instance (z : String × (ℚ × ℚ) × (ℚ × ℚ)) (nx ny : ℚ) : Decidable (inRect z nx ny) := by
  unfold inRect; infer_instance

/-- Zone lookup on already-normalized coordinates: first matching rectangle in
declaration order, defaulting to mid-range (`_get_zone` after its first two
lines). -/
def getZoneNorm (nx ny : ℚ) : String :=
  match zonesList.find? (fun z => decide (inRect z nx ny)) with
  | some z => z.1
  | none => "mid-range"

/-- `AnalysisService._get_zone`: normalize pixel coordinates by the 1920 by
1080 frame constants, then scan the zone rectangles. -/
def getZone (x y : ℚ) : String :=
  getZoneNorm (x / 1920) (y / 1080)

/-- Index of the first minimum of a list of rationals (`np.argmin`, which
returns the first occurrence of the minimum; 0 on the empty list). -/
def idxOfMin (l : List ℚ) : ℕ :=
  match l with
  | [] => 0
  | x :: xs =>
      (xs.foldl
        (fun (acc : ℕ × ℚ × ℕ) y =>
          if y < acc.2.1 then (acc.2.2, y, acc.2.2 + 1) else (acc.1, acc.2.1, acc.2.2 + 1))
        (0, x, 1)).1

/-- Upward-motion test of `_analyze_trajectory`: on the y values of the first
5 samples, `all(y[i] > y[i+1] for i in range(min(3, len(y_values) - 1)))`. -/
def upwardB (w : List BallSample) : Bool :=
  let ys := (w.take 5).map (fun p => p.y)
  (List.range (min 3 (ys.length - 1))).all
    (fun i => decide (ys.getD (i + 1) 0 < ys.getD i 0))

/-- start_x of `_analyze_trajectory`: first sample x over 1920. -/
def startX (w : List BallSample) : ℚ := (w.headD dfltSample).x / 1920

/-- end_x of `_analyze_trajectory`: last sample x over 1920. -/
def endX (w : List BallSample) : ℚ := (w.getLastD dfltSample).x / 1920

/-- final_y of `_analyze_trajectory`: last sample y over 1080. -/
def finalY (w : List BallSample) : ℚ := (w.getLastD dfltSample).y / 1080

/-- Toward-hoop test of `_analyze_trajectory`:
`abs(end_x - 0.5) < abs(start_x - 0.5) or abs(end_x - 0.5) < 0.2`. -/
def towardB (w : List BallSample) : Bool :=
  decide (|endX w - 0.5| < |startX w - 0.5|) || decide (|endX w - 0.5| < 0.2)

/-- The deterministic make branch of `_analyze_trajectory`:
`final_y < 0.15 and abs(end_x - 0.5) < 0.1` with the peak
(`np.argmin` of all window y values) strictly before the last two samples. -/
def makeCondB (w : List BallSample) : Bool :=
  decide (finalY w < 0.15) && decide (|endX w - 0.5| < 0.1) &&
    decide (idxOfMin (w.map (fun p => p.y)) < w.length - 2)

/-- The deterministic miss branch of `_analyze_trajectory`:
`final_y > 0.2 or abs(end_x - 0.5) > 0.15`. -/
def missCondB (w : List BallSample) : Bool :=
  decide (0.2 < finalY w) || decide (0.15 < |endX w - 0.5|)

/-- `AnalysisService._analyze_trajectory`. The rand argument is the value the
source draws from `np.random.random()` in the ambiguous branch
(`"make" if np.random.random() > 0.45 else "miss"`). The nested make branch of
the source (outer geometric test, inner peak-index test, falling through to
the miss test on either failure) lands in exactly the same place whichever
test fails, so the two tests are merged into `makeCondB`. -/
def analyzeTrajectory (rand : ℚ) (w : List BallSample) : Bool × String :=
  if w.length < 5 then (false, "unknown")
  else if !upwardB w then (false, "unknown")
  else if !towardB w then (false, "unknown")
  else if makeCondB w then (true, "make")
  else if missCondB w then (true, "miss")
  else (true, if 0.45 < rand then "make" else "miss")

/-- `AnalysisService._calculate_shot_confidence` (the outcome argument is
unused, as in the source). -/
def shotConfidence (window : List BallSample) (outcome : String) : ℚ :=
  let base : ℚ := 0.7
  let pointBonus : ℚ := min ((window.length : ℚ) / 15) 0.15
  let final_x : ℚ := (window.getLastD dfltSample).x / 1920
  let proximityBonus : ℚ := max 0 (0.15 - |final_x - 0.5|)
  min (base + pointBonus + proximityBonus) 0.98

/-- Construction of one ShotEvent from a qualifying window, as in the body of
the `if is_shot:` branch of `_detect_shots`. -/
def mkShot (shotId : ℕ) (window : List BallSample) (outcome : String) : ShotEvent :=
  { id := shotId
    frame_start := (window.headD dfltSample).frame
    frame_end := (window.getLastD dfltSample).frame
    release_x := (window.headD dfltSample).x / 1920 * 100
    release_y := (window.headD dfltSample).y / 1080 * 100
    outcome := outcome
    zone := getZone (window.headD dfltSample).x (window.headD dfltSample).y
    confidence := shotConfidence window outcome
    timestamp := (window.headD dfltSample).timestamp
    trajectory := window.map (fun p => (p.x, p.y)) }

/-- The window anchored at index i: `ball_track[i:i + 15]`. -/
def windowAt (track : List BallSample) (i : ℕ) : List BallSample :=
  (track.drop i).take 15

/-- The scan loop of `_detect_shots` (`while i < len(ball_track) - 5`), with a
fuel argument: the loop index strictly increases every iteration, so fuel equal
to the stream length is never exhausted while the loop guard still holds. -/
def scanAux (rands : ℕ → ℚ) (track : List BallSample) :
    ℕ → ℕ → ℕ → List ShotEvent
  | 0, _, _ => []
  | fuel + 1, i, shotId =>
      if i < track.length - 5 then
        let window := windowAt track i
        if 5 ≤ window.length then
          let res := analyzeTrajectory (rands i) window
          if res.1 then
            mkShot shotId window res.2 ::
              scanAux rands track fuel (i + window.length) (shotId + 1)
          else
            scanAux rands track fuel (i + 1) shotId
        else
          scanAux rands track fuel (i + 1) shotId
      else
        []

/-- The whole sliding-window scan of `_detect_shots`, from `i = 0` and
`shot_id = 1`. -/
def scanShots (rands : ℕ → ℚ) (track : List BallSample) : List ShotEvent :=
  scanAux rands track track.length 0 1

/-- The zone list of `_generate_mock_shots`, in source order. -/
def mockZones : List String :=
  ["right-wing", "left-wing", "top-key", "paint", "left-corner", "right-corner", "mid-range"]

/-- The zone-based make probabilities of `_generate_mock_shots`
(`make_probs.get(zone, 0.4)`). -/
def makeProb (zone : String) : ℚ :=
  if zone = "paint" then 0.55
  else if zone = "right-wing" then 0.45
  else if zone = "left-wing" then 0.42
  else if zone = "top-key" then 0.40
  else if zone = "mid-range" then 0.38
  else if zone = "left-corner" then 0.35
  else if zone = "right-corner" then 0.35
  else 0.4

/-- The random draws consumed by one run of `_generate_mock_shots`, indexed by
the loop counter i: the zone chosen by `np.random.choice(zones, p=zone_weights)`,
the two position offsets drawn from `np.random.uniform` (their bounds depend on
the chosen zone branch), the outcome draw from `np.random.random()`, and the
confidence offset drawn from `np.random.uniform(0, 0.1)`. -/
structure MockRand where
  zoneChoice : ℕ → String
  posOff1 : ℕ → ℚ
  posOff2 : ℕ → ℚ
  outcomeDraw : ℕ → ℚ
  confOff : ℕ → ℚ

/-- One iteration of the loop of `_generate_mock_shots`. -/
def mockShot (mr : MockRand) (i : ℕ) : ShotEvent :=
  let zone := mr.zoneChoice i
  let xy : ℚ × ℚ :=
    if zone = "right-wing" then (75 + mr.posOff1 i, 40 + mr.posOff2 i)
    else if zone = "left-wing" then (25 + mr.posOff1 i, 40 + mr.posOff2 i)
    else if zone = "top-key" then (50 + mr.posOff1 i, 55 + mr.posOff2 i)
    else if zone = "paint" then (50 + mr.posOff1 i, 20 + mr.posOff2 i)
    else if zone = "left-corner" then (15 + mr.posOff1 i, 75 + mr.posOff2 i)
    else if zone = "right-corner" then (85 + mr.posOff1 i, 75 + mr.posOff2 i)
    else (50 + mr.posOff1 i, 35 + mr.posOff2 i)
  { id := i + 1
    frame_start := (i : Int) * 150
    frame_end := (i : Int) * 150 + 30
    release_x := xy.1
    release_y := xy.2
    outcome := if mr.outcomeDraw i < makeProb zone then "make" else "miss"
    zone := zone
    confidence := 0.85 + mr.confOff i
    timestamp := (i : ℚ) * 5
    trajectory := [] }

/-- `AnalysisService._generate_mock_shots`: 20 mock shots, ids 1 to 20. -/
def generateMockShots (mr : MockRand) : List ShotEvent :=
  (List.range 20).map (mockShot mr)

/-- `AnalysisService._detect_shots`, with an explicit flag recording whether
one of the two synthetic-fallback returns was taken (sparse input, or a scan
that found nothing). -/
def detectShotsF (rands : ℕ → ℚ) (mr : MockRand) (track : List BallSample) :
    List ShotEvent × Bool :=
  if track.length < 10 then (generateMockShots mr, true)
  else
    let s := scanShots rands track
    if s = [] then (generateMockShots mr, true) else (s, false)

/-- The shot list returned by `_detect_shots`. -/
def detectShots (rands : ℕ → ℚ) (mr : MockRand) (track : List BallSample) :
    List ShotEvent :=
  (detectShotsF rands mr track).1

/-- Python round-half-to-even (the behaviour of the built-in `round` on exact
decimal ties), at integer precision. -/
def pyRoundInt (q : ℚ) : ℤ :=
  let f := ⌊q⌋
  let frac := q - (f : ℚ)
  if frac < 1/2 then f
  else if 1/2 < frac then f + 1
  else if f % 2 = 0 then f else f + 1

/-- Python `round(q, 1)`. -/
def pyRound1 (q : ℚ) : ℚ := (pyRoundInt (q * 10) : ℚ) / 10

/-- Python `round(q, 2)`. -/
def pyRound2 (q : ℚ) : ℚ := (pyRoundInt (q * 100) : ℚ) / 100

/-- One step of the per-zone aggregation dictionaries of
`_calculate_statistics` and `_calculate_zone_stats`: entries are
(zone, makes, attempts) in first-encounter order, and an existing entry is
updated in place (Python dict update preserves insertion order). -/
def bumpZone (l : List (String × ℕ × ℕ)) (zone : String) (isMake : Bool) :
    List (String × ℕ × ℕ) :=
  match l with
  | [] => [(zone, if isMake then 1 else 0, 1)]
  | e :: rest =>
      if e.1 = zone then (e.1, (if isMake then e.2.1 + 1 else e.2.1), e.2.2 + 1) :: rest
      else e :: bumpZone rest zone isMake

/-- The per-zone aggregation over a shot list (the `zone_stats` dictionary of
`_calculate_statistics`, equally the `zone_data` dictionary of
`_calculate_zone_stats`): association list (zone, makes, attempts) in
first-encounter order. -/
def zoneCounts (shots : List ShotEvent) : List (String × ℕ × ℕ) :=
  shots.foldl (fun acc s => bumpZone acc s.zone (s.outcome = "make")) []

/-- Python `max(l, key=k, default=d)`: default on the empty list, otherwise
the first element attaining the maximal key (a later element replaces the
current best only when its key is strictly greater). -/
def pyMax {α : Type} (k : α → ℚ) (d : α) : List α → α
  | [] => d
  | x :: xs => xs.foldl (fun b y => if k b < k y then y else b) x

/-- The sort key of the hot-zone selection in `_calculate_statistics`:
make rate of the zone if it has more than 2 attempts, else 0. -/
def hotKey (e : String × ℕ × ℕ) : ℚ :=
  if 2 < e.2.2 then (e.2.1 : ℚ) / (e.2.2 : ℚ) else 0

/-- The hot-zone selection of `_calculate_statistics`: Python
`max(zone_stats.items(), key=..., default=("mid-range", ...))[0]` (the
returned statistics dict additionally formats this name with
`.replace("-", " ").title()` for display; claims speak about the selected
raw zone name). -/
def hotZoneRaw (shots : List ShotEvent) : String :=
  (pyMax hotKey ("mid-range", 0, 1) (zoneCounts shots)).1

/-- The three-point zone set of `_calculate_statistics`. -/
def threeZones : List String :=
  ["left-corner", "right-corner", "left-wing", "right-wing", "top-key"]

/-- The overall statistics record of `_calculate_statistics`. -/
structure Statistics where
  totalShots : ℕ
  makes : ℕ
  misses : ℕ
  fieldGoalPercentage : ℚ
  threePointPercentage : ℚ
  hotZone : String
  avgReleaseTime : ℚ
  deriving Repr, DecidableEq

/-- `AnalysisService._calculate_statistics`. The avgRand argument is the
draw of `np.random.uniform(0, 0.15)` used only for the avgReleaseTime field. -/
def calculateStatistics (avgRand : ℚ) (shots : List ShotEvent) : Statistics :=
  let total := shots.length
  let makes := (shots.filter (fun s => s.outcome = "make")).length
  let misses := total - makes
  let threeShots := shots.filter (fun s => threeZones.contains s.zone)
  let threeMakes := (threeShots.filter (fun s => s.outcome = "make")).length
  let threePct : ℚ :=
    if threeShots = [] then 0 else (threeMakes : ℚ) / (threeShots.length : ℚ) * 100
  { totalShots := total
    makes := makes
    misses := misses
    fieldGoalPercentage :=
      if 0 < total then pyRound1 ((makes : ℚ) / (total : ℚ) * 100) else 0
    threePointPercentage := pyRound1 threePct
    hotZone := hotZoneRaw shots
    avgReleaseTime := pyRound2 (0.75 + avgRand) }

/-- One per-zone statistics record of `_calculate_zone_stats` (the source
additionally formats the name with `.replace("-", " ").title()` for display;
the raw zone name is kept here). -/
structure ZoneStat where
  name : String
  attempts : ℕ
  makes : ℕ
  percentage : ℚ
  deriving Repr, DecidableEq

/-- The sort key of `_calculate_zone_stats`: make rate, 0 on zero attempts. -/
def zoneRate (e : String × ℕ × ℕ) : ℚ :=
  if 0 < e.2.2 then (e.2.1 : ℚ) / (e.2.2 : ℚ) else 0

/-- Stable insertion into a descending-by-key list: the inserted element
(which comes from an earlier position of the input) goes before every element
with a key no larger than its own. -/
def insertDescBy {α : Type} (k : α → ℚ) (a : α) : List α → List α
  | [] => [a]
  | b :: l => if k a < k b then b :: insertDescBy k a l else a :: b :: l

/-- Stable descending sort by key. Python `sorted(..., key=k, reverse=True)`
is a stable descending sort, and any two stable sorts under the same key
produce the same output, so this structurally recursive insertion sort is a
faithful model of the source's sort call. -/
def sortDescBy {α : Type} (k : α → ℚ) : List α → List α
  | [] => []
  | a :: l => insertDescBy k a (sortDescBy k l)

/-- `AnalysisService._calculate_zone_stats`: aggregate per zone, sort
descending by make rate, and emit one ZoneStat per zone. -/
def calculateZoneStats (shots : List ShotEvent) : List ZoneStat :=
  let sortedCounts := sortDescBy zoneRate (zoneCounts shots)
  sortedCounts.map (fun e =>
    { name := e.1
      attempts := e.2.2
      makes := e.2.1
      percentage :=
        if 0 < e.2.2 then pyRound1 ((e.2.1 : ℚ) / (e.2.2 : ℚ) * 100) else 0 })

/-!
Embedding of `DetectionService.track_objects` (detection.py). The source
compares Euclidean pixel distances (`np.sqrt(dx**2 + dy**2)`) against the
100 px threshold and against the running minimum; both comparisons are
between nonnegative numbers, so they are modelled by the equivalent
comparisons of squared distances against 10000 and the running squared
minimum. The initial running minimum `float("inf")` is modelled by the
sentinel 10000: the update guard requires the squared distance to be below
10000 anyway, so any sentinel at least 10000 is equivalent to infinity.
-/

/-- A bounding box as carried through detection.py. -/
structure BBox where
  x1 : ℚ
  y1 : ℚ
  x2 : ℚ
  y2 : ℚ
  center_x : ℚ
  center_y : ℚ
  deriving Repr, DecidableEq

/-- One detected object in one frame. -/
structure DetObj where
  cls : String
  confidence : ℚ
  bbox : BBox
  deriving Repr, DecidableEq

/-- One frame of the detection stream. -/
structure FrameData where
  frame : Int
  timestamp : ℚ
  objects : List DetObj
  deriving Repr, DecidableEq

/-- One sample appended to a player track or to the ball stream. -/
structure TrackSample where
  frame : Int
  timestamp : ℚ
  x : ℚ
  y : ℚ
  bbox : BBox
  deriving Repr, DecidableEq

/-- The mutable state of the tracking loop: the next fresh player id, the
last seen position per live track (insertion-ordered, as a Python dict), the
player trajectories, and the ball stream. -/
structure TrackState where
  playerId : ℕ
  lastPos : List (ℕ × ℚ × ℚ)
  players : List (ℕ × List TrackSample)
  ball : List TrackSample
  deriving Repr, DecidableEq

/-- Squared Euclidean distance between two pixel positions. -/
def sqDist (p q : ℚ × ℚ) : ℚ :=
  (p.1 - q.1) ^ 2 + (p.2 - q.2) ^ 2

/-- The matching loop of `track_objects`: for each live track, update the
best candidate when its distance passes the threshold and beats the running
minimum (both strict, so the first track found wins exact ties). -/
def findMatchGo (pos : ℚ × ℚ) :
    List (ℕ × ℚ × ℚ) → Option ℕ → ℚ → Option ℕ
  | [], best, _ => best
  | q :: rest, best, minD =>
      let d2 := sqDist pos q.2
      if d2 < 10000 ∧ d2 < minD then findMatchGo pos rest (some q.1) d2
      else findMatchGo pos rest best minD

/-- The whole matching step for one person detection. -/
def findMatch (lastPos : List (ℕ × ℚ × ℚ)) (pos : ℚ × ℚ) : Option ℕ :=
  findMatchGo pos lastPos none 10000

/-- Set a key of an insertion-ordered association list, updating in place
when present and appending when absent (Python dict assignment). -/
def setAssoc {β : Type} : List (ℕ × β) → ℕ → β → List (ℕ × β)
  | [], k, v => [(k, v)]
  | e :: rest, k, v => if e.1 = k then (k, v) :: rest else e :: setAssoc rest k v

/-- Append a sample to the trajectory stored under a key (the key is always
present when this is called; an absent key starts a fresh trajectory, which
matches the creation `tracks["players"][matched_id] = []` just before the
append). -/
def appendSample : List (ℕ × List TrackSample) → ℕ → TrackSample →
    List (ℕ × List TrackSample)
  | [], k, s => [(k, [s])]
  | e :: rest, k, s =>
      if e.1 = k then (e.1, e.2 ++ [s]) :: rest else e :: appendSample rest k s

/-- Processing of one `person` detection inside the frame loop of
`track_objects`. -/
def processPerson (frame : Int) (timestamp : ℚ) (obj : DetObj)
    (st : TrackState) : TrackState :=
  let pos := (obj.bbox.center_x, obj.bbox.center_y)
  let sample : TrackSample :=
    ⟨frame, timestamp, pos.1, pos.2, obj.bbox⟩
  match findMatch st.lastPos pos with
  | some pid =>
      { st with
        players := appendSample st.players pid sample
        lastPos := setAssoc st.lastPos pid pos }
  | none =>
      let pid := st.playerId
      { playerId := pid + 1
        players := appendSample (st.players ++ [(pid, [])]) pid sample
        lastPos := setAssoc st.lastPos pid pos
        ball := st.ball }

/-- Processing of one detected object of one frame. -/
def processObj (frame : Int) (timestamp : ℚ) (st : TrackState)
    (obj : DetObj) : TrackState :=
  if obj.cls = "person" then processPerson frame timestamp obj st
  else if obj.cls = "sports ball" then
    { st with
      ball := st.ball ++
        [⟨frame, timestamp, obj.bbox.center_x, obj.bbox.center_y, obj.bbox⟩] }
  else st

/-- Processing of one frame of the detection stream. -/
def processFrame (st : TrackState) (fd : FrameData) : TrackState :=
  fd.objects.foldl (processObj fd.frame fd.timestamp) st

/-- `DetectionService.track_objects` over the whole detection stream. -/
def trackObjects (detections : List FrameData) : TrackState :=
  detections.foldl processFrame ⟨0, [], [], []⟩

/-- Whether a window reaches the randomized ambiguous-outcome branch of
`_analyze_trajectory`: it qualifies as a shot attempt but neither the
deterministic make branch nor the deterministic miss branch applies. -/
def ambiguousWindow (w : List BallSample) : Bool :=
  decide (5 ≤ w.length) && upwardB w && towardB w && !makeCondB w && !missCondB w

/-- The first entry of an aggregation list whose hot-zone key is maximal
among all entries (used to state the corrected hot-zone claim). -/
def firstMaxKey (l : List (String × ℕ × ℕ)) : Option (String × ℕ × ℕ) :=
  l.find? (fun e => l.all (fun y => decide (hotKey y ≤ hotKey e)))

/-- The hot-zone selection as the corrected claim states it: the first zone
of the per-zone aggregation (first-encounter order) attaining the maximal
key, and mid-range when there are no shots at all. -/
def hotZoneFirstMax (shots : List ShotEvent) : String :=
  match firstMaxKey (zoneCounts shots) with
  | some e => e.1
  | none => "mid-range"

/-- A single made shot from the paint, used as concrete input. -/
def paintMakeShot : ShotEvent :=
  ⟨1, 0, 30, 50, 10, "make", "paint", 0.9, 0, []⟩

/-- A constant mock-randomness source, used as concrete input. -/
def constMR : MockRand :=
  ⟨fun _ => "paint", fun _ => 0, fun _ => 0, fun _ => 0, fun _ => 0⟩

/-- A 7-sample window that takes the deterministic make branch: the ball
rises over the first samples, peaks at the fifth sample, descends after the
peak, and ends high and centered (x constantly 960, so end_x is 0.5). -/
def makeWindow : List BallSample :=
  [⟨0, 0, 960, 500⟩, ⟨1, 1, 960, 400⟩, ⟨2, 2, 960, 300⟩,
   ⟨3, 3, 960, 200⟩, ⟨4, 4, 960, 50⟩, ⟨5, 5, 960, 100⟩, ⟨6, 6, 960, 150⟩]

/-- A 5-sample window with strictly rising ball (decreasing y) ending at the
horizontal center. -/
def upWindow : List BallSample :=
  [⟨0, 0, 960, 500⟩, ⟨1, 1, 960, 400⟩, ⟨2, 2, 960, 300⟩,
   ⟨3, 3, 960, 200⟩, ⟨4, 4, 960, 100⟩]

/-- A 10-sample ball stream at constant height: no window shows upward
motion, so no window qualifies and none is ambiguous. -/
def flatTrack : List BallSample :=
  (List.range 10).map (fun i => ⟨(i : Int), (i : ℚ), 100, 100⟩)

/-- A person detection with the given bbox center, used as concrete input. -/
def personAt (x y : ℚ) : DetObj :=
  ⟨"person", 0.92, ⟨x - 40, y - 100, x + 40, y + 100, x, y⟩⟩

/-- Two consecutive frames with one person detection each, 50 px apart. -/
def mergeFrames : List FrameData :=
  [⟨0, 0, [personAt 0 0]⟩, ⟨1, 1/30, [personAt 50 0]⟩]

/-- Two consecutive frames with one person detection each, 150 px apart. -/
def splitFrames : List FrameData :=
  [⟨0, 0, [personAt 0 0]⟩, ⟨1, 1/30, [personAt 150 0]⟩]


/-!
Helper lemmas shared between claims.
-/

/-- find? returns the head of the suffix when everything before it fails the
predicate and it satisfies it. -/
theorem find?_first_hit {α : Type} (p : α → Bool) (z : α) (v : List α) :
    ∀ u : List α, (∀ x ∈ u, p x = false) → p z = true →
      (u ++ z :: v).find? p = some z := by
  intro u
  induction u with
  | nil => intro _ hz; simp [List.find?_cons, hz]
  | cons a u ih =>
      intro h hz
      have ha := h a (by simp)
      simp only [List.cons_append, List.find?_cons, ha]
      exact ih (fun x hx => h x (by simp [hx])) hz

/-- getD of a take is getD of the list below the cut. -/
theorem getD_take_of_lt {α : Type} [Inhabited α] (l : List α) (n m : ℕ) (d : α)
    (h : m < n) : (l.take n).getD m d = l.getD m d := by
  simp [List.getD_eq_getElem?_getD, List.getElem?_take_of_lt h]

/-- The key of the seed never exceeds the key of the Python max fold. -/
theorem pyMax_seed_le {α : Type} (k : α → ℚ) (xs : List α) :
    ∀ x : α, k x ≤ k (xs.foldl (fun b y => if k b < k y then y else b) x) := by
  induction xs with
  | nil => intro x; simp
  | cons y ys ih =>
      intro x
      simp only [List.foldl_cons]
      by_cases h : k x < k y
      · simpa [h] using le_trans (le_of_lt h) (ih y)
      · simpa [h] using ih x

/-- The Python max fold returns the first element attaining the maximal key:
the list splits around the result, everything before it has a strictly
smaller key, everything after it no larger key. -/
theorem pyMax_first_max {α : Type} (k : α → ℚ) (xs : List α) :
    ∀ x : α, ∃ u v,
      x :: xs = u ++ (xs.foldl (fun b y => if k b < k y then y else b) x) :: v
      ∧ (∀ y ∈ u, k y < k (xs.foldl (fun b y => if k b < k y then y else b) x))
      ∧ (∀ y ∈ v, k y ≤ k (xs.foldl (fun b y => if k b < k y then y else b) x)) := by
  induction xs with
  | nil => intro x; exact ⟨[], [], by simp, by simp, by simp⟩
  | cons y ys ih =>
      intro x
      simp only [List.foldl_cons]
      by_cases h : k x < k y
      · rw [if_pos h]
        obtain ⟨u, v, he, hu, hv⟩ := ih y
        refine ⟨x :: u, v, ?_, ?_, hv⟩
        · rw [List.cons_append, ← he]
        · intro z hz
          rcases List.mem_cons.mp hz with rfl | hz
          · exact lt_of_lt_of_le h (pyMax_seed_le k ys y)
          · exact hu z hz
      · rw [if_neg h]
        obtain ⟨u, v, he, hu, hv⟩ := ih x
        match u, he, hu with
        | [], he, _ =>
            have hx : x = ys.foldl (fun b y => if k b < k y then y else b) x := by
              simpa using congrArg (fun l => l.headD x) he
            have hv2 : ys = v := by simpa using congrArg List.tail he
            refine ⟨[], y :: ys, by simpa using congrArg (fun t => t :: y :: ys) hx, by simp, ?_⟩
            intro z hz
            rcases List.mem_cons.mp hz with rfl | hz
            · exact le_trans (le_of_not_lt h) (pyMax_seed_le k ys x)
            · exact hv z (hv2 ▸ hz)
        | a :: u2, he, hu =>
            have ha : x = a := by simpa using congrArg (fun l => l.headD x) he
            have hys : ys = u2 ++ (ys.foldl (fun b y => if k b < k y then y else b) x) :: v := by
              simpa using congrArg List.tail he
            refine ⟨x :: y :: u2, v, ?_, ?_, hv⟩
            · rw [List.cons_append, List.cons_append, ← hys]
            · intro z hz
              have hxlt : k x < k (ys.foldl (fun b y => if k b < k y then y else b) x) := by
                have := hu a (by simp)
                rwa [← ha] at this
              rcases List.mem_cons.mp hz with rfl | hz
              · exact hxlt
              · rcases List.mem_cons.mp hz with rfl | hz
                · exact lt_of_le_of_lt (le_of_not_lt h) hxlt
                · exact hu z (by simp [hz])

/-- C1: for every shot list (and any draw for the avgReleaseTime field) the
statistics satisfy makes + misses = totalShots = length of the shot list. -/
theorem claim_C1_statistics_invariant (avgRand : ℚ) (shots : List ShotEvent) :
    (calculateStatistics avgRand shots).makes
        + (calculateStatistics avgRand shots).misses
      = (calculateStatistics avgRand shots).totalShots
    ∧ (calculateStatistics avgRand shots).totalShots = shots.length := by
  have h := List.length_filter_le (fun s => s.outcome = "make") shots
  constructor
  · simp only [calculateStatistics]
    omega
  · simp only [calculateStatistics]

/-- C5: the zone classifier returns the first zone whose rectangle contains
the normalized position, scanning the seven declared rectangles in order
(paint first, mid-range last), and mid-range when none matches; in
particular normalized (0.5, 0.1) is paint, (0.1, 0.8) is left-corner and
(0.5, 0.9) falls through to mid-range. -/
theorem claim_C5_zone_classifier :
    (∀ nx ny : ℚ, (∀ z ∈ zonesList, ¬ inRect z nx ny) →
        getZoneNorm nx ny = "mid-range")
    ∧ (∀ nx ny : ℚ, ∀ u z v, zonesList = u ++ z :: v → inRect z nx ny →
        (∀ z2 ∈ u, ¬ inRect z2 nx ny) → getZoneNorm nx ny = z.1)
    ∧ getZone (0.5 * 1920) (0.1 * 1080) = "paint"
    ∧ getZone (0.1 * 1920) (0.8 * 1080) = "left-corner"
    ∧ getZone (0.5 * 1920) (0.9 * 1080) = "mid-range" := by
  refine ⟨?_, ?_, by decide, by decide, by decide⟩
  · intro nx ny h
    have : zonesList.find? (fun z => decide (inRect z nx ny)) = none := by
      simp only [List.find?_eq_none, decide_eq_true_eq]
      exact h
    simp [getZoneNorm, this]
  · intro nx ny u z v he hz hu
    have : zonesList.find? (fun z => decide (inRect z nx ny)) = some z := by
      rw [he]
      exact find?_first_hit _ z v u
        (fun x hx => by simpa using hu x hx) (by simpa using hz)
    simp [getZoneNorm, this]

/-- Witness for C5: the first-match rule applied at the concrete paint point. -/
theorem claim_C5_zone_classifier_witness : getZoneNorm 0.5 0.1 = "paint" :=
  claim_C5_zone_classifier.2.1 0.5 0.1 [] ("paint", (0.35, 0.65), (0, 0.25))
    [("left-corner", (0, 0.25), (0.6, 1.0)),
     ("right-corner", (0.75, 1.0), (0.6, 1.0)),
     ("left-wing", (0, 0.35), (0.25, 0.6)),
     ("right-wing", (0.65, 1.0), (0.25, 0.6)),
     ("top-key", (0.35, 0.65), (0.4, 0.7)),
     ("mid-range", (0.25, 0.75), (0.25, 0.4))]
    (by decide) (by decide) (by decide)

/-- C6: the synthetic fallback is taken exactly when the ball stream has
fewer than 10 samples or the scan finds no shots; in particular every
length-9 stream falls back, and a length-10 stream whose scan finds nothing
falls back. -/
theorem claim_C6_fallback (rands : ℕ → ℚ) (mr : MockRand)
    (track : List BallSample) :
    ((detectShotsF rands mr track).2 = true ↔
      track.length < 10 ∨ scanShots rands track = [])
    ∧ (track.length = 9 → (detectShotsF rands mr track).2 = true)
    ∧ (track.length = 10 → scanShots rands track = [] →
        (detectShotsF rands mr track).2 = true) := by
  have hiff : (detectShotsF rands mr track).2 = true ↔
      track.length < 10 ∨ scanShots rands track = [] := by
    by_cases h1 : track.length < 10
    · simp [detectShotsF, h1]
    · by_cases h2 : scanShots rands track = []
      · simp [detectShotsF, h1, h2]
      · simp [detectShotsF, h1, h2]
  refine ⟨hiff, ?_, ?_⟩
  · intro h9
    exact hiff.mpr (Or.inl (by omega))
  · intro _ h2
    exact hiff.mpr (Or.inr h2)

/-- Witness for C6: a concrete 9-sample stream triggers the fallback. -/
theorem claim_C6_fallback_witness :
    (detectShotsF (fun _ => 0) constMR (List.replicate 9 dfltSample)).2 = true :=
  (claim_C6_fallback (fun _ => 0) constMR (List.replicate 9 dfltSample)).2.1
    (by simp)

/-- Membership in a stable descending insertion. -/
theorem mem_insertDescBy {α : Type} (k : α → ℚ) (a x : α) :
    ∀ l : List α, x ∈ insertDescBy k a l ↔ x = a ∨ x ∈ l := by
  intro l
  induction l with
  | nil => simp [insertDescBy]
  | cons b l ih =>
      by_cases h : k a < k b
      · simp only [insertDescBy, if_pos h, List.mem_cons, ih]
        tauto
      · simp only [insertDescBy, if_neg h, List.mem_cons]

/-- Membership in a stable descending sort. -/
theorem mem_sortDescBy {α : Type} (k : α → ℚ) (x : α) :
    ∀ l : List α, x ∈ sortDescBy k l ↔ x ∈ l := by
  intro l
  induction l with
  | nil => simp [sortDescBy]
  | cons a l ih =>
      simp [sortDescBy, mem_insertDescBy, ih, List.mem_cons]

/-- One aggregation step keeps makes no larger than attempts. -/
theorem bumpZone_le (zone : String) (isMake : Bool) :
    ∀ l : List (String × ℕ × ℕ), (∀ e ∈ l, e.2.1 ≤ e.2.2) →
      ∀ e ∈ bumpZone l zone isMake, e.2.1 ≤ e.2.2 := by
  intro l
  induction l with
  | nil =>
      intro _ e he
      simp only [bumpZone, List.mem_singleton] at he
      subst he
      cases isMake <;> simp
  | cons a l ih =>
      intro h e he
      by_cases ha : a.1 = zone
      · simp only [bumpZone, if_pos ha, List.mem_cons] at he
        rcases he with rfl | he
        · have := h a (by simp)
          cases isMake <;> simp <;> omega
        · exact h e (by simp [he])
      · simp only [bumpZone, if_neg ha, List.mem_cons] at he
        rcases he with rfl | he
        · exact h e (by simp)
        · exact ih (fun e2 he2 => h e2 (by simp [he2])) e he

/-- Every entry of the per-zone aggregation has makes no larger than
attempts. -/
theorem zoneCounts_le (shots : List ShotEvent) :
    ∀ e ∈ zoneCounts shots, e.2.1 ≤ e.2.2 := by
  have main : ∀ (l : List ShotEvent) (acc : List (String × ℕ × ℕ)),
      (∀ e ∈ acc, e.2.1 ≤ e.2.2) →
      ∀ e ∈ l.foldl (fun acc s => bumpZone acc s.zone (s.outcome = "make")) acc,
        e.2.1 ≤ e.2.2 := by
    intro l
    induction l with
    | nil => intro acc h; simpa using h
    | cons s l ih =>
        intro acc h
        simp only [List.foldl_cons]
        exact ih _ (bumpZone_le _ _ acc h)
  exact main shots [] (by simp)

/-- C8: every ZoneStat of the per-zone aggregation satisfies
0 ≤ makes ≤ attempts, and its percentage is the rounded make rate when there
are attempts and 0 otherwise (the whole aggregation is a total function: the
zero-attempt case short-circuits to 0 instead of dividing). -/
theorem claim_C8_zone_stat_invariant (shots : List ShotEvent) :
    ∀ st ∈ calculateZoneStats shots,
      0 ≤ st.makes ∧ st.makes ≤ st.attempts
      ∧ st.percentage =
          (if 0 < st.attempts then
            pyRound1 ((st.makes : ℚ) / (st.attempts : ℚ) * 100)
          else 0) := by
  intro st hst
  simp only [calculateZoneStats, List.mem_map] at hst
  obtain ⟨e, he, rfl⟩ := hst
  have he2 : e ∈ zoneCounts shots := (mem_sortDescBy zoneRate e _).mp he
  refine ⟨Nat.zero_le _, zoneCounts_le shots e he2, rfl⟩

/-- Witness for C8: the single-shot aggregation evaluated concretely. -/
theorem claim_C8_zone_stat_invariant_witness :
    (⟨"paint", 1, 1, 100⟩ : ZoneStat).makes ≤ (⟨"paint", 1, 1, 100⟩ : ZoneStat).attempts
    ∧ (⟨"paint", 1, 1, 100⟩ : ZoneStat).percentage =
        (if 0 < (⟨"paint", 1, 1, 100⟩ : ZoneStat).attempts then
          pyRound1 (((⟨"paint", 1, 1, 100⟩ : ZoneStat).makes : ℚ)
            / ((⟨"paint", 1, 1, 100⟩ : ZoneStat).attempts : ℚ) * 100)
        else 0) :=
  have h := claim_C8_zone_stat_invariant [paintMakeShot]
    ⟨"paint", 1, 1, 100⟩ (by decide)
  ⟨h.2.1, h.2.2⟩

/-- C4 counterexample: a single made shot from the paint gives an
aggregation in which no zone has more than 2 attempts, yet the hot-zone
selection returns paint, not the claimed default mid-range. -/
theorem claim_C4_hot_zone_counterexample :
    zoneCounts [paintMakeShot] = [("paint", 1, 1)]
    ∧ hotZoneRaw [paintMakeShot] = "paint"
    ∧ hotZoneRaw [paintMakeShot] ≠ "mid-range" := by
  refine ⟨by decide, by decide, by decide⟩

/-- C4 (amended): the hot zone is the first entry of the per-zone
aggregation (first-encounter order) whose key - make rate when the zone has
more than 2 attempts, 0 otherwise - is maximal among all aggregated zones;
the default mid-range is returned only when the aggregation is empty, that
is, when there are no shots at all. -/
theorem claim_C4_hot_zone_amended (shots : List ShotEvent) :
    hotZoneRaw shots = hotZoneFirstMax shots := by
  rcases hzc : zoneCounts shots with _ | ⟨x, xs⟩
  · simp [hotZoneRaw, hotZoneFirstMax, firstMaxKey, pyMax, hzc, List.find?]
  · obtain ⟨u, v, he, hu, hv⟩ := pyMax_first_max hotKey xs x
    set R := xs.foldl (fun b y => if hotKey b < hotKey y then y else b) x with hR
    have hmemR : R ∈ x :: xs := by
      rw [he]; exact List.mem_append_right u (by simp)
    have hall : ∀ y ∈ x :: xs, hotKey y ≤ hotKey R := by
      intro y hy
      rw [he] at hy
      rcases List.mem_append.mp hy with hy | hy
      · exact le_of_lt (hu y hy)
      · rcases List.mem_cons.mp hy with rfl | hy
        · exact le_refl _
        · exact hv y hy
    have hfind : (x :: xs).find?
        (fun e => (x :: xs).all (fun y => decide (hotKey y ≤ hotKey e))) = some R := by
      have hstep := congrArg
        (fun l => l.find? (fun e => (x :: xs).all (fun y => decide (hotKey y ≤ hotKey e)))) he
      simp only at hstep
      rw [hstep]
      apply find?_first_hit
      · intro z hz
        have hzR : hotKey z < hotKey R := hu z hz
        simp only [List.all_eq_false, decide_eq_true_eq, not_le]
        exact ⟨R, hmemR, hzR⟩
      · simp only [List.all_eq_true, decide_eq_true_eq]
        exact hall
    show (pyMax hotKey ("mid-range", 0, 1) (zoneCounts shots)).1 = hotZoneFirstMax shots
    rw [hzc]
    simp only [hotZoneFirstMax, firstMaxKey, hzc, hfind, pyMax, ← hR]

/-- The upward-motion test, in terms of the y values of the stream: y strictly
decreases across each of the first 3 consecutive pairs (the first 5 samples
contribute exactly these pairs when the window has at least 5 samples). -/
theorem upwardB_iff (w : List BallSample) (h5 : 5 ≤ w.length) :
    upwardB w = true ↔
      ∀ i < 3, (w.map (fun p => p.y)).getD (i + 1) 0
        < (w.map (fun p => p.y)).getD i 0 := by
  have hlen : ((w.take 5).map (fun p => p.y)).length = 5 := by
    simp only [List.length_map, List.length_take]
    omega
  simp only [upwardB, hlen, List.all_eq_true, List.mem_range, decide_eq_true_eq]
  have h34 : min 3 (5 - 1) = 3 := rfl
  rw [h34]
  constructor <;> intro h i hi
  · have hx := h i hi
    rwa [List.map_take, getD_take_of_lt _ _ _ _ (by omega),
      getD_take_of_lt _ _ _ _ (by omega)] at hx
  · have hx := h i hi
    rwa [List.map_take, getD_take_of_lt _ _ _ _ (by omega),
      getD_take_of_lt _ _ _ _ (by omega)]

/-- The toward-hoop test, as a proposition. -/
theorem towardB_iff (w : List BallSample) :
    towardB w = true ↔
      (|endX w - 0.5| < |startX w - 0.5| ∨ |endX w - 0.5| < 0.2) := by
  simp [towardB]

/-- C3: a window of at least 5 samples is classified as a shot attempt
exactly when the y value strictly decreases across each of the first 3
consecutive pairs of its first 5 samples and the normalized horizontal
motion is toward the hoop; a window failing either test yields
(False, unknown). -/
theorem claim_C3_shot_attempt_classification (rand : ℚ) (w : List BallSample)
    (h5 : 5 ≤ w.length) :
    ((analyzeTrajectory rand w).1 = true ↔
      ((∀ i < 3, (w.map (fun p => p.y)).getD (i + 1) 0
          < (w.map (fun p => p.y)).getD i 0)
       ∧ (|endX w - 0.5| < |startX w - 0.5| ∨ |endX w - 0.5| < 0.2)))
    ∧ (¬ ((∀ i < 3, (w.map (fun p => p.y)).getD (i + 1) 0
          < (w.map (fun p => p.y)).getD i 0)
       ∧ (|endX w - 0.5| < |startX w - 0.5| ∨ |endX w - 0.5| < 0.2)) →
      analyzeTrajectory rand w = (false, "unknown")) := by
  have hup := upwardB_iff w h5
  have htw := towardB_iff w
  have hnl : ¬ (w.length < 5) := by omega
  constructor
  · constructor
    · intro h1
      cases hub : upwardB w
      · simp [analyzeTrajectory, hnl, hub] at h1
      · cases htb : towardB w
        · simp [analyzeTrajectory, hnl, hub, htb] at h1
        · exact ⟨hup.mp hub, htw.mp htb⟩
    · rintro ⟨hu, ht⟩
      have hub := hup.mpr hu
      have htb := htw.mpr ht
      simp only [analyzeTrajectory, if_neg hnl, hub, htb, Bool.not_true,
        Bool.false_eq_true, if_false]
      split_ifs <;> rfl
  · intro hcon
    cases hub : upwardB w
    · simp [analyzeTrajectory, hnl, hub]
    · cases htb : towardB w
      · simp [analyzeTrajectory, hnl, hub, htb]
      · exact absurd ⟨hup.mp hub, htw.mp htb⟩ hcon

/-- Witness for C3: a concrete strictly-rising centered 5-sample window is
classified as a shot attempt. -/
theorem claim_C3_shot_attempt_classification_witness :
    (analyzeTrajectory 0 upWindow).1 = true :=
  (claim_C3_shot_attempt_classification 0 upWindow (by decide)).1.mpr (by decide)

/-- The deterministic make branch, as a proposition. -/
theorem makeCondB_iff (w : List BallSample) :
    makeCondB w = true ↔
      (finalY w < 0.15 ∧ |endX w - 0.5| < 0.1
        ∧ idxOfMin (w.map (fun p => p.y)) < w.length - 2) := by
  simp [makeCondB, and_assoc]

/-- The deterministic miss branch, as a proposition. -/
theorem missCondB_iff (w : List BallSample) :
    missCondB w = true ↔ (0.2 < finalY w ∨ 0.15 < |endX w - 0.5|) := by
  simp [missCondB]

/-- C2: on a qualifying window the outcome is make exactly on the
deterministic make conditions (low final y, centered end, vertical minimum
before the last two samples); otherwise miss on the deterministic miss
conditions; otherwise it is resolved by the random draw, make exactly when
the draw exceeds 0.45 (which happens with probability 0.55 for a uniform
draw on [0, 1)). -/
theorem claim_C2_outcome_classification (rand : ℚ) (w : List BallSample)
    (hshot : (analyzeTrajectory rand w).1 = true) :
    ((finalY w < 0.15 ∧ |endX w - 0.5| < 0.1
        ∧ idxOfMin (w.map (fun p => p.y)) < w.length - 2) →
      (analyzeTrajectory rand w).2 = "make")
    ∧ (¬ (finalY w < 0.15 ∧ |endX w - 0.5| < 0.1
        ∧ idxOfMin (w.map (fun p => p.y)) < w.length - 2) →
      (0.2 < finalY w ∨ 0.15 < |endX w - 0.5|) →
      (analyzeTrajectory rand w).2 = "miss")
    ∧ (¬ (finalY w < 0.15 ∧ |endX w - 0.5| < 0.1
        ∧ idxOfMin (w.map (fun p => p.y)) < w.length - 2) →
      ¬ (0.2 < finalY w ∨ 0.15 < |endX w - 0.5|) →
      (analyzeTrajectory rand w).2 = (if 0.45 < rand then "make" else "miss")) := by
  have hnl : ¬ (w.length < 5) := by
    intro h
    simp [analyzeTrajectory, h] at hshot
  have hub : upwardB w = true := by
    cases h : upwardB w
    · simp [analyzeTrajectory, hnl, h] at hshot
    · rfl
  have htb : towardB w = true := by
    cases h : towardB w
    · simp [analyzeTrajectory, hnl, hub, h] at hshot
    · rfl
  refine ⟨?_, ?_, ?_⟩
  · intro hc
    simp [analyzeTrajectory, hnl, hub, htb, (makeCondB_iff w).mpr hc]
  · intro hnc hmc
    have hf : makeCondB w = false := by
      cases h : makeCondB w
      · rfl
      · exact absurd ((makeCondB_iff w).mp h) hnc
    simp [analyzeTrajectory, hnl, hub, htb, hf, (missCondB_iff w).mpr hmc]
  · intro hnc hnm
    have hf : makeCondB w = false := by
      cases h : makeCondB w
      · rfl
      · exact absurd ((makeCondB_iff w).mp h) hnc
    have hg : missCondB w = false := by
      cases h : missCondB w
      · rfl
      · exact absurd ((missCondB_iff w).mp h) hnm
    simp [analyzeTrajectory, hnl, hub, htb, hf, hg]

/-- Witness for C2: the concrete make window takes the deterministic make
branch. -/
theorem claim_C2_outcome_classification_witness :
    (analyzeTrajectory 0 makeWindow).2 = "make" :=
  (claim_C2_outcome_classification 0 makeWindow (by decide)).1 (by decide)

/-- The mock generator emits exactly 20 shots. -/
theorem generateMockShots_length (mr : MockRand) :
    (generateMockShots mr).length = 20 := by
  simp [generateMockShots]

/-- The mock generator is never empty. -/
theorem generateMockShots_ne_nil (mr : MockRand) :
    generateMockShots mr ≠ [] := by
  simp [generateMockShots]

/-- The mock ids are sequential from 1 to 20. -/
theorem generateMockShots_ids (mr : MockRand) :
    (generateMockShots mr).map (fun s => s.id) = List.range' 1 20 := by
  simp only [generateMockShots, List.map_map]
  rw [List.range'_eq_map_range]
  apply List.map_congr_left
  intro i _
  show (mockShot mr i).id = 1 + i
  simp only [mockShot]
  omega

/-- Each mock shot has an empty trajectory, a make-or-miss outcome, and a
confidence of 0.85 plus the uniform draw from [0, 0.1). -/
theorem generateMockShots_mem (mr : MockRand)
    (hconf : ∀ i, 0 ≤ mr.confOff i ∧ mr.confOff i < 0.1) :
    ∀ s ∈ generateMockShots mr,
      s.trajectory = [] ∧ (s.outcome = "make" ∨ s.outcome = "miss")
      ∧ 0.85 ≤ s.confidence ∧ s.confidence ≤ 0.95 := by
  intro s hs
  simp only [generateMockShots, List.mem_map] at hs
  obtain ⟨i, _, rfl⟩ := hs
  refine ⟨rfl, ?_, ?_, ?_⟩
  · by_cases h : mr.outcomeDraw i < makeProb (mr.zoneChoice i)
    · left; simp [mockShot, h]
    · right; simp [mockShot, h]
  · have h1 := (hconf i).1
    simp only [mockShot]
    linarith
  · have h2 := (hconf i).2
    simp only [mockShot]
    linarith

/-- C10: whenever a fallback return of the detector is taken, the result is
the synthetic demo set: exactly 20 shots with ids 1 to 20, empty
trajectories, make-or-miss outcomes, and confidences inside [0.85, 0.95]
(given that the uniform confidence draw lies in [0, 0.1)); and on any input
whatsoever the detector returns a nonempty shot list. -/
theorem claim_C10_synthetic_fallback (rands : ℕ → ℚ) (mr : MockRand)
    (track : List BallSample)
    (hconf : ∀ i, 0 ≤ mr.confOff i ∧ mr.confOff i < 0.1) :
    ((detectShotsF rands mr track).2 = true →
      ((detectShotsF rands mr track).1.length = 20
       ∧ (detectShotsF rands mr track).1.map (fun s => s.id) = List.range' 1 20
       ∧ ∀ s ∈ (detectShotsF rands mr track).1,
           s.trajectory = [] ∧ (s.outcome = "make" ∨ s.outcome = "miss")
           ∧ 0.85 ≤ s.confidence ∧ s.confidence ≤ 0.95))
    ∧ (detectShotsF rands mr track).1 ≠ [] := by
  constructor
  · intro hfb
    have h1 : (detectShotsF rands mr track).1 = generateMockShots mr := by
      by_cases h : track.length < 10
      · simp [detectShotsF, h]
      · by_cases h2 : scanShots rands track = []
        · simp [detectShotsF, h, h2]
        · simp [detectShotsF, h, h2] at hfb
    rw [h1]
    exact ⟨generateMockShots_length mr, generateMockShots_ids mr,
      generateMockShots_mem mr hconf⟩
  · by_cases h : track.length < 10
    · simp [detectShotsF, h, generateMockShots_ne_nil]
    · by_cases h2 : scanShots rands track = []
      · simp [detectShotsF, h, h2, generateMockShots_ne_nil]
      · simp [detectShotsF, h, h2]

/-- Witness for C10: the empty stream falls back and yields 20 shots. -/
theorem claim_C10_synthetic_fallback_witness :
    (detectShotsF (fun _ => 0) constMR []).1.length = 20
    ∧ (detectShotsF (fun _ => 0) constMR []).1 ≠ [] :=
  have h := claim_C10_synthetic_fallback (fun _ => 0) constMR []
    (fun _ => ⟨by norm_num [constMR], by norm_num [constMR]⟩)
  ⟨(h.1 (by decide)).1, h.2⟩

/-- On a window that does not reach the ambiguous branch, the trajectory
analysis does not depend on the random draw. -/
theorem analyzeTrajectory_rand_indep (w : List BallSample)
    (h : ambiguousWindow w = false) (r1 r2 : ℚ) :
    analyzeTrajectory r1 w = analyzeTrajectory r2 w := by
  unfold analyzeTrajectory
  by_cases h5 : w.length < 5
  · simp [h5]
  · cases hub : upwardB w
    · simp [hub]
    · cases htb : towardB w
      · simp [htb]
      · cases hmk : makeCondB w
        · cases hms : missCondB w
          · exfalso
            simp [ambiguousWindow, hub, htb, hmk, hms] at h
            omega
          · simp [hmk, hms]
        · simp [hmk]

/-- The scan loop does not depend on the random draws when no window below
the loop bound is ambiguous: the qualification test and the window advance
are draw-independent, and every visited window resolves deterministically. -/
theorem scanAux_rand_indep (r1 r2 : ℕ → ℚ) (track : List BallSample)
    (hamb : ∀ j < track.length - 5, ambiguousWindow (windowAt track j) = false) :
    ∀ fuel i sid, scanAux r1 track fuel i sid = scanAux r2 track fuel i sid := by
  intro fuel
  induction fuel with
  | zero => intro i sid; rfl
  | succ fuel ih =>
      intro i sid
      by_cases hi : i < track.length - 5
      · have heq : analyzeTrajectory (r1 i) (windowAt track i)
            = analyzeTrajectory (r2 i) (windowAt track i) :=
          analyzeTrajectory_rand_indep _ (hamb i hi) _ _
        simp only [scanAux, if_pos hi]
        rw [heq]
        by_cases hw : 5 ≤ (windowAt track i).length
        · rw [if_pos hw, if_pos hw]
          by_cases hres : (analyzeTrajectory (r2 i) (windowAt track i)).1
          · rw [if_pos hres, if_pos hres, ih]
          · rw [if_neg hres, if_neg hres, ih]
        · rw [if_neg hw, if_neg hw, ih]
      · simp only [scanAux, if_neg hi]

/-- C9: on a stream of at least 10 samples in which no window (at any scan
anchor inside the loop bound) reaches the ambiguous-outcome branch, the scan
result is independent of the random draws, and when the scan finds at least
one shot the whole detector output is independent of the draws (two runs
with the same seed are then trivially equal; the randomness of the source is
modelled here as the explicit draw streams). -/
theorem claim_C9_determinism (track : List BallSample) (r1 r2 : ℕ → ℚ)
    (h10 : 10 ≤ track.length)
    (hamb : ∀ j < track.length - 5, ambiguousWindow (windowAt track j) = false) :
    scanShots r1 track = scanShots r2 track
    ∧ (scanShots r1 track ≠ [] →
        ∀ mr1 mr2 : MockRand, detectShots r1 mr1 track = detectShots r2 mr2 track) := by
  have hscan : scanShots r1 track = scanShots r2 track :=
    scanAux_rand_indep r1 r2 track hamb track.length 0 1
  refine ⟨hscan, ?_⟩
  intro hne mr1 mr2
  have hn : ¬ track.length < 10 := by omega
  unfold detectShots detectShotsF
  rw [if_neg hn, if_neg hn]
  simp only [hscan] at hne ⊢
  rw [if_neg hne, if_neg hne]

/-- Witness for C9: a concrete flat 10-sample stream has no qualifying (and
hence no ambiguous) window, and its scan is the same under two different
draw streams. -/
theorem claim_C9_determinism_witness :
    scanShots (fun _ => 0) flatTrack = scanShots (fun _ => 1) flatTrack :=
  (claim_C9_determinism flatTrack (fun _ => 0) (fun _ => 1)
    (by decide) (by decide)).1

/-- The matching loop leaves the accumulator alone when no entry passes the
threshold and beats the running minimum. -/
theorem findMatchGo_no_update (pos : ℚ × ℚ) :
    ∀ (l : List (ℕ × ℚ × ℚ)) (best : Option ℕ) (minD : ℚ),
      (∀ q ∈ l, ¬ (sqDist pos q.2 < 10000 ∧ sqDist pos q.2 < minD)) →
      findMatchGo pos l best minD = best := by
  intro l
  induction l with
  | nil => intro best minD _; rfl
  | cons q0 rest ih =>
      intro best minD h
      have h0 := h q0 (by simp)
      simp only [findMatchGo, if_neg h0]
      exact ih best minD (fun q hq => h q (by simp [hq]))

/-- Once the accumulator holds a candidate, the loop never returns none. -/
theorem findMatchGo_some_stays (pos : ℚ × ℚ) :
    ∀ (l : List (ℕ × ℚ × ℚ)) (pid : ℕ) (minD : ℚ),
      findMatchGo pos l (some pid) minD ≠ none := by
  intro l
  induction l with
  | nil => intro pid minD; simp [findMatchGo]
  | cons q0 rest ih =>
      intro pid minD
      by_cases h0 : sqDist pos q0.2 < 10000 ∧ sqDist pos q0.2 < minD
      · simp only [findMatchGo, if_pos h0]
        exact ih q0.1 _
      · simp only [findMatchGo, if_neg h0]
        exact ih pid minD

/-- A qualifying entry forces the loop to return a candidate. -/
theorem findMatchGo_hit (pos : ℚ × ℚ) :
    ∀ (l : List (ℕ × ℚ × ℚ)) (best : Option ℕ) (minD : ℚ),
      (∃ q ∈ l, sqDist pos q.2 < 10000 ∧ sqDist pos q.2 < minD) →
      findMatchGo pos l best minD ≠ none := by
  intro l
  induction l with
  | nil => intro best minD h; simp at h
  | cons q0 rest ih =>
      intro best minD h
      by_cases h0 : sqDist pos q0.2 < 10000 ∧ sqDist pos q0.2 < minD
      · simp only [findMatchGo, if_pos h0]
        exact findMatchGo_some_stays pos rest q0.1 _
      · simp only [findMatchGo, if_neg h0]
        obtain ⟨q, hq, hqc⟩ := h
        rcases List.mem_cons.mp hq with rfl | hq
        · exact absurd hqc h0
        · exact ih best minD ⟨q, hq, hqc⟩

/-- Forward characterization of the matching loop: a returned candidate is
either the untouched accumulator (when nothing qualifies) or an entry of the
list that qualifies, strictly beats every earlier qualifying entry, and is
no worse than every later entry. -/
theorem findMatchGo_some (pos : ℚ × ℚ) :
    ∀ (l : List (ℕ × ℚ × ℚ)) (best : Option ℕ) (minD : ℚ) (pid : ℕ),
      findMatchGo pos l best minD = some pid →
      (best = some pid
        ∧ ∀ q ∈ l, ¬ (sqDist pos q.2 < 10000 ∧ sqDist pos q.2 < minD))
      ∨ ∃ u p v, l = u ++ (pid, p) :: v
          ∧ sqDist pos p < 10000 ∧ sqDist pos p < minD
          ∧ (∀ q ∈ u, ¬ (sqDist pos q.2 < 10000 ∧ sqDist pos q.2 < minD)
              ∨ sqDist pos p < sqDist pos q.2)
          ∧ (∀ q ∈ v, sqDist pos p ≤ sqDist pos q.2) := by
  intro l
  induction l with
  | nil =>
      intro best minD pid h
      exact Or.inl ⟨h, by simp⟩
  | cons q0 rest ih =>
      intro best minD pid h
      by_cases h0 : sqDist pos q0.2 < 10000 ∧ sqDist pos q0.2 < minD
      · simp only [findMatchGo, if_pos h0] at h
        rcases ih (some q0.1) (sqDist pos q0.2) pid h with ⟨hb, hn⟩ | ⟨u, p, v, hel, h1, h2, hu, hv⟩
        · have hq0 : q0.1 = pid := by simpa using hb
          refine Or.inr ⟨[], q0.2, rest, ?_, h0.1, h0.2, by simp, ?_⟩
          · simp [← hq0]
          · intro q hq
            by_contra hlt
            push_neg at hlt
            exact hn q hq ⟨lt_trans hlt h0.1, hlt⟩
        · refine Or.inr ⟨q0 :: u, p, v, by simp [hel], h1, lt_trans h2 h0.2, ?_, hv⟩
          intro q hq
          rcases List.mem_cons.mp hq with rfl | hq
          · exact Or.inr h2
          · rcases hu q hq with hno | hlt
            · by_cases hqlt : sqDist pos q.2 < sqDist pos q0.2
              · left
                intro hcon
                exact hno ⟨hcon.1, hqlt⟩
              · exact Or.inr (lt_of_lt_of_le h2 (le_of_not_lt hqlt))
            · exact Or.inr hlt
      · simp only [findMatchGo, if_neg h0] at h
        rcases ih best minD pid h with ⟨hb, hn⟩ | ⟨u, p, v, hel, h1, h2, hu, hv⟩
        · refine Or.inl ⟨hb, ?_⟩
          intro q hq
          rcases List.mem_cons.mp hq with rfl | hq
          · exact h0
          · exact hn q hq
        · refine Or.inr ⟨q0 :: u, p, v, by simp [hel], h1, h2, ?_, hv⟩
          intro q hq
          rcases List.mem_cons.mp hq with rfl | hq
          · exact Or.inl h0
          · exact hu q hq

/-- Backward direction of the matching characterization: an entry that
qualifies, strictly beats every earlier qualifying entry, and is no worse
than every later entry, is the one returned. -/
theorem findMatchGo_complete (pos : ℚ × ℚ) :
    ∀ (u : List (ℕ × ℚ × ℚ)) (pid : ℕ) (p : ℚ × ℚ) (v : List (ℕ × ℚ × ℚ))
      (best : Option ℕ) (minD : ℚ),
      sqDist pos p < 10000 → sqDist pos p < minD →
      (∀ q ∈ u, ¬ (sqDist pos q.2 < 10000 ∧ sqDist pos q.2 < minD)
          ∨ sqDist pos p < sqDist pos q.2) →
      (∀ q ∈ v, sqDist pos p ≤ sqDist pos q.2) →
      findMatchGo pos (u ++ (pid, p) :: v) best minD = some pid := by
  intro u
  induction u with
  | nil =>
      intro pid p v best minD h1 h2 _ hv
      have hcond : sqDist pos p < 10000 ∧ sqDist pos p < minD := ⟨h1, h2⟩
      simp only [List.nil_append, findMatchGo, if_pos hcond]
      exact findMatchGo_no_update pos v (some pid) (sqDist pos p)
        (fun q hq => fun hcon => absurd hcon.2 (not_lt.mpr (hv q hq)))
  | cons q0 u ih =>
      intro pid p v best minD h1 h2 hu hv
      by_cases h0 : sqDist pos q0.2 < 10000 ∧ sqDist pos q0.2 < minD
      · have hpq0 : sqDist pos p < sqDist pos q0.2 := by
          rcases hu q0 (by simp) with hno | hlt
          · exact absurd h0 hno
          · exact hlt
        simp only [List.cons_append, findMatchGo, if_pos h0]
        apply ih pid p v (some q0.1) (sqDist pos q0.2) h1 hpq0
        · intro q hq
          rcases hu q (by simp [hq]) with hno | hlt
          · by_cases hqlt : sqDist pos q.2 < sqDist pos q0.2
            · left
              intro hcon
              exact hno ⟨hcon.1, lt_trans hqlt h0.2⟩
            · exact Or.inr (lt_of_lt_of_le hpq0 (le_of_not_lt hqlt))
          · exact Or.inr hlt
        · exact hv
      · simp only [List.cons_append, findMatchGo, if_neg h0]
        exact ih pid p v best minD h1 h2 (fun q hq => hu q (by simp [hq])) hv

/-- The match of one detection is none exactly when no live track is within
the 100 px threshold (squared distances against 10000). -/
theorem findMatch_none_iff (lastPos : List (ℕ × ℚ × ℚ)) (pos : ℚ × ℚ) :
    findMatch lastPos pos = none ↔
      ∀ q ∈ lastPos, 10000 ≤ sqDist pos q.2 := by
  constructor
  · intro h q hq
    by_contra hlt
    push_neg at hlt
    exact findMatchGo_hit pos lastPos none 10000 ⟨q, hq, hlt, hlt⟩ h
  · intro h
    exact findMatchGo_no_update pos lastPos none 10000
      (fun q hq => fun hcon => absurd hcon.1 (not_lt.mpr (h q hq)))

/-- The match of one detection is a given track exactly when that track
appears in the live list with a squared distance below the threshold, every
earlier track is either out of threshold or strictly farther (so the first
track found wins exact ties), and no later track is strictly closer. -/
theorem findMatch_some_iff (lastPos : List (ℕ × ℚ × ℚ)) (pos : ℚ × ℚ) (pid : ℕ) :
    findMatch lastPos pos = some pid ↔
      ∃ u p v, lastPos = u ++ (pid, p) :: v
        ∧ sqDist pos p < 10000
        ∧ (∀ q ∈ u, 10000 ≤ sqDist pos q.2 ∨ sqDist pos p < sqDist pos q.2)
        ∧ (∀ q ∈ v, sqDist pos p ≤ sqDist pos q.2) := by
  constructor
  · intro h
    rcases findMatchGo_some pos lastPos none 10000 pid h with ⟨hb, _⟩ | ⟨u, p, v, hel, h1, _, hu, hv⟩
    · exact absurd hb (by simp)
    · refine ⟨u, p, v, hel, h1, ?_, hv⟩
      intro q hq
      rcases hu q hq with hno | hlt
      · left
        by_contra hge
        push_neg at hge
        exact hno ⟨hge, hge⟩
      · exact Or.inr hlt
  · rintro ⟨u, p, v, hel, h1, hu, hv⟩
    rw [show findMatch lastPos pos = findMatchGo pos lastPos none 10000 from rfl,
      hel]
    apply findMatchGo_complete pos u pid p v none 10000 h1 h1
    · intro q hq
      rcases hu q hq with hge | hlt
      · exact Or.inl (fun hcon => absurd hcon.1 (not_lt.mpr hge))
      · exact Or.inr hlt
    · exact hv

/-- Updating an existing key preserves the key sequence of the association
list. -/
theorem setAssoc_keys_mem {β : Type} (k : ℕ) (v : β) :
    ∀ l : List (ℕ × β), k ∈ l.map Prod.fst →
      (setAssoc l k v).map Prod.fst = l.map Prod.fst := by
  intro l
  induction l with
  | nil => intro h; simp at h
  | cons e rest ih =>
      intro h
      by_cases he : e.1 = k
      · simp [setAssoc, he]
      · have h2 : k ∈ rest.map Prod.fst := by
          rcases List.mem_cons.mp h with h | h
          · exact absurd h.symm he
          · exact h
        simp only [setAssoc, if_neg he, List.map_cons, ih h2]

/-- Setting an absent key appends it at the end of the key sequence. -/
theorem setAssoc_keys_new {β : Type} (k : ℕ) (v : β) :
    ∀ l : List (ℕ × β), k ∉ l.map Prod.fst →
      (setAssoc l k v).map Prod.fst = l.map Prod.fst ++ [k] := by
  intro l
  induction l with
  | nil => intro _; simp [setAssoc]
  | cons e rest ih =>
      intro h
      have he : ¬ (e.1 = k) := by
        intro hc
        exact h (by simp [hc])
      have h2 : k ∉ rest.map Prod.fst := by
        intro hc
        exact h (by simp [hc])
      simp only [setAssoc, if_neg he, List.map_cons, ih h2, List.cons_append]

/-- Appending a sample under an existing key preserves the key sequence. -/
theorem appendSample_keys_mem (k : ℕ) (s : TrackSample) :
    ∀ l : List (ℕ × List TrackSample), k ∈ l.map Prod.fst →
      (appendSample l k s).map Prod.fst = l.map Prod.fst := by
  intro l
  induction l with
  | nil => intro h; simp at h
  | cons e rest ih =>
      intro h
      by_cases he : e.1 = k
      · simp [appendSample, he]
      · have h2 : k ∈ rest.map Prod.fst := by
          rcases List.mem_cons.mp h with h | h
          · exact absurd h.symm he
          · exact h
        simp only [appendSample, if_neg he, List.map_cons, ih h2]

/-- Processing one person detection preserves the tracker invariant: the
player keys (in creation order) are exactly 0, 1, ..., playerId - 1, both in
the trajectory table and in the last-position table; a fresh detection takes
the current counter as its id and bumps the counter. -/
theorem processPerson_inv (f : Int) (t : ℚ) (obj : DetObj) (st : TrackState)
    (h1 : st.players.map Prod.fst = List.range st.playerId)
    (h2 : st.lastPos.map Prod.fst = List.range st.playerId) :
    (processPerson f t obj st).players.map Prod.fst
        = List.range (processPerson f t obj st).playerId
    ∧ (processPerson f t obj st).lastPos.map Prod.fst
        = List.range (processPerson f t obj st).playerId := by
  unfold processPerson
  cases hm : findMatch st.lastPos (obj.bbox.center_x, obj.bbox.center_y) with
  | some pid =>
      obtain ⟨u, p, v, hel, _, _, _⟩ := (findMatch_some_iff _ _ _).mp hm
      have hmem : pid ∈ st.lastPos.map Prod.fst := by rw [hel]; simp
      have hmem2 : pid ∈ st.players.map Prod.fst := by
        rw [h1, ← h2]; exact hmem
      simp only [hm]
      constructor
      · simpa [appendSample_keys_mem _ _ _ hmem2] using h1
      · simpa [setAssoc_keys_mem _ _ _ hmem] using h2
  | none =>
      have hnot : st.playerId ∉ st.lastPos.map Prod.fst := by rw [h2]; simp
      have hkeys : (st.players ++ [(st.playerId, ([] : List TrackSample))]).map Prod.fst
          = List.range (st.playerId + 1) := by
        simp [h1, List.range_succ]
      have hmem3 : st.playerId ∈
          (st.players ++ [(st.playerId, ([] : List TrackSample))]).map Prod.fst := by
        rw [hkeys]; simp
      simp only [hm]
      constructor
      · simpa [appendSample_keys_mem _ _ _ hmem3] using hkeys
      · simp [setAssoc_keys_new _ _ _ hnot, h2, List.range_succ]

/-- Processing any one detection preserves the tracker invariant. -/
theorem processObj_inv (f : Int) (t : ℚ) (st : TrackState) (obj : DetObj)
    (h1 : st.players.map Prod.fst = List.range st.playerId)
    (h2 : st.lastPos.map Prod.fst = List.range st.playerId) :
    (processObj f t st obj).players.map Prod.fst
        = List.range (processObj f t st obj).playerId
    ∧ (processObj f t st obj).lastPos.map Prod.fst
        = List.range (processObj f t st obj).playerId := by
  unfold processObj
  by_cases hp : obj.cls = "person"
  · simp only [if_pos hp]
    exact processPerson_inv f t obj st h1 h2
  · by_cases hb : obj.cls = "sports ball"
    · simp only [if_neg hp, if_pos hb]
      exact ⟨h1, h2⟩
    · simp only [if_neg hp, if_neg hb]
      exact ⟨h1, h2⟩

/-- Processing a whole frame preserves the tracker invariant. -/
theorem processFrame_inv (fd : FrameData) :
    ∀ (objs : List DetObj) (st : TrackState),
      st.players.map Prod.fst = List.range st.playerId →
      st.lastPos.map Prod.fst = List.range st.playerId →
      (objs.foldl (processObj fd.frame fd.timestamp) st).players.map Prod.fst
          = List.range (objs.foldl (processObj fd.frame fd.timestamp) st).playerId
      ∧ (objs.foldl (processObj fd.frame fd.timestamp) st).lastPos.map Prod.fst
          = List.range (objs.foldl (processObj fd.frame fd.timestamp) st).playerId := by
  intro objs
  induction objs with
  | nil => intro st h1 h2; exact ⟨h1, h2⟩
  | cons o objs ih =>
      intro st h1 h2
      have h := processObj_inv fd.frame fd.timestamp st o h1 h2
      exact ih _ h.1 h.2

/-- The whole tracking pass keeps the player ids exactly 0 to playerId - 1,
in creation order: every new track takes the next counter value and ids are
never reused. -/
theorem trackObjects_inv :
    ∀ (detections : List FrameData) (st : TrackState),
      st.players.map Prod.fst = List.range st.playerId →
      st.lastPos.map Prod.fst = List.range st.playerId →
      (detections.foldl processFrame st).players.map Prod.fst
          = List.range (detections.foldl processFrame st).playerId
      ∧ (detections.foldl processFrame st).lastPos.map Prod.fst
          = List.range (detections.foldl processFrame st).playerId := by
  intro detections
  induction detections with
  | nil => intro st h1 h2; exact ⟨h1, h2⟩
  | cons fd dets ih =>
      intro st h1 h2
      have h := processFrame_inv fd fd.objects st h1 h2
      exact ih _ h.1 h.2

/-- C7: a person detection is matched to the live track with the strictly
smallest pixel distance under the 100 px threshold (first found wins exact
ties; squared distances model the monotone square root), gets a fresh
monotonically increasing never-reused id otherwise (the player key sequence
is always exactly 0..playerId-1 in creation order); concretely, consecutive
detections 50 px apart merge into one track and 150 px apart give two. -/
theorem claim_C7_tracker :
    (∀ (lastPos : List (ℕ × ℚ × ℚ)) (pos : ℚ × ℚ),
      (findMatch lastPos pos = none ↔ ∀ q ∈ lastPos, 10000 ≤ sqDist pos q.2)
      ∧ ∀ pid, (findMatch lastPos pos = some pid ↔
          ∃ u p v, lastPos = u ++ (pid, p) :: v
            ∧ sqDist pos p < 10000
            ∧ (∀ q ∈ u, 10000 ≤ sqDist pos q.2 ∨ sqDist pos p < sqDist pos q.2)
            ∧ (∀ q ∈ v, sqDist pos p ≤ sqDist pos q.2)))
    ∧ (∀ detections : List FrameData,
        (trackObjects detections).players.map Prod.fst
          = List.range (trackObjects detections).playerId)
    ∧ (trackObjects mergeFrames).players.length = 1
    ∧ (trackObjects mergeFrames).playerId = 1
    ∧ (trackObjects splitFrames).players.length = 2
    ∧ (trackObjects splitFrames).playerId = 2 := by
  refine ⟨?_, ?_, by decide, by decide, by decide, by decide⟩
  · intro lastPos pos
    exact ⟨findMatch_none_iff lastPos pos, fun pid => findMatch_some_iff lastPos pos pid⟩
  · intro detections
    exact (trackObjects_inv detections ⟨0, [], [], []⟩ (by simp) (by simp)).1

/-- Witness for C7: the nearest-under-threshold rule applied at a concrete
live track 50 px away. -/
theorem claim_C7_tracker_witness :
    findMatch [(0, (0, 0))] (50, 0) = some 0 :=
  ((claim_C7_tracker.1 [(0, (0, 0))] (50, 0)).2 0).mpr
    ⟨[], (0, 0), [], rfl, by decide, by simp, by simp⟩
